import Mathlib

/-!
Verification of the rule-based transcript editing engine in `src/editor.py`.

The embedding models Python strings as `List Char` (`Str`).  Character
classes (`\w`, `\s`, `str.isalpha`, `str.lower`, `str.upper`) are modelled
at the ASCII level: Python's Unicode-aware behaviour coincides with this
model on ASCII text, and all concrete inputs used below are ASCII.
Python `dict`s are modelled as association lists with Python's dict
semantics (insertion order preserved, overwriting a key keeps its
position).  Confidences (Python floats) are modelled as rationals.
`re.sub` template expansion of the replacement string is not modelled: the
replacement is inserted literally, which agrees with Python whenever the
replacement contains no backslash.
-/

namespace TranscriptEdit

/-! ### Definitions (shallow embedding of `src/editor.py`) -/

abbrev Str := List Char

def cs (s : String) : Str := s.toList

/-- The apostrophe character (used in the operation detail strings). -/
def quoteChar : Char := Char.ofNat 39

def asciiLower : Str := cs "abcdefghijklmnopqrstuvwxyz"

def asciiUpper : Str := cs "ABCDEFGHIJKLMNOPQRSTUVWXYZ"

def asciiDigits : Str := cs "0123456789"

/-- `A → a` pairs, modelling `str.lower` on ASCII. -/
def lowerPairs : List (Char × Char) := asciiUpper.zip asciiLower

/-- `a → A` pairs, modelling `str.upper` on ASCII. -/
def upperPairs : List (Char × Char) := asciiLower.zip asciiUpper

def tlookup (c : Char) : List (Char × Char) → Option Char
  | [] => none
  | (a, b) :: rest => if c = a then some b else tlookup c rest

def lowerChar (c : Char) : Char := (tlookup c lowerPairs).getD c

def upperChar (c : Char) : Char := (tlookup c upperPairs).getD c

/-- Python `str.isalpha`, ASCII model. -/
def isAlphaChar (c : Char) : Bool := asciiLower.contains c || asciiUpper.contains c

/-- Python whitespace (the `\s` class and `str.strip`), ASCII model. -/
def spaceChars : Str := [' ', '\t', '\n', '\x0b', '\x0c', '\r']

def isSpaceChar (c : Char) : Bool := spaceChars.contains c

/-- The regex `\w` class, ASCII model: `[a-zA-Z0-9_]`. -/
def isWordChar (c : Char) : Bool := isAlphaChar c || asciiDigits.contains c || c = '_'

def isWordOpt : Option Char → Bool
  | none => false
  | some c => isWordChar c

def lower (s : Str) : Str := s.map lowerChar

/-- Python `str.strip()`: drop leading and trailing whitespace. -/
def strip (s : Str) : Str :=
  ((s.dropWhile isSpaceChar).reverse.dropWhile isSpaceChar).reverse

/-- `re.sub(r"\s+", " ", s)`: collapse each whitespace run to a single space.
The scan consumes at least one character per step, so running it with the
input's length as fuel never exhausts the fuel; fuel keeps the recursion
structural (hence kernel-computable). -/
def collapseWsF : Nat → Str → Str
  | 0, l => l
  | _ + 1, [] => []
  | fuel + 1, c :: rest =>
    if isSpaceChar c then ' ' :: collapseWsF fuel (rest.dropWhile isSpaceChar)
    else c :: collapseWsF fuel rest

def collapseWs (s : Str) : Str := collapseWsF s.length s

/-- `_norm` from `editor.py`: lowercase, collapse whitespace, strip. -/
def norm (s : Str) : Str := strip (collapseWs (lower s))

def conf06 : ℚ := Rat.mk' 3 5

def conf07 : ℚ := Rat.mk' 7 10

def conf08 : ℚ := Rat.mk' 4 5

def conf085 : ℚ := Rat.mk' 17 20

def conf09 : ℚ := Rat.mk' 9 10

def dictGet {β : Type} (k : Str) : List (Str × β) → Option β
  | [] => none
  | (a, b) :: rest => if a = k then some b else dictGet k rest

/-- `d[k] = v`: overwrite in place if the key exists, else append. -/
def dictSet {β : Type} (k : Str) (v : β) : List (Str × β) → List (Str × β)
  | [] => [(k, v)]
  | (a, b) :: rest => if a = k then (a, v) :: rest else (a, b) :: dictSet k v rest

def dictKeys {β : Type} (d : List (Str × β)) : List Str := d.map Prod.fst

def canMatch (key : Str) (prev : Option Char) (rest : Str) : Bool :=
  !key.isEmpty &&
    decide (lower (rest.take key.length) = lower key) &&
    (isWordOpt prev != isWordOpt (rest.take key.length).head?) &&
    (isWordOpt (rest.take key.length).getLast? != isWordOpt (rest.drop key.length).head?)

/-- The scan of `Pattern.sub`: left-to-right, non-overlapping; at a match,
emit the replacement and resume after the matched span.  A successful match
consumes at least one character (the key is non-empty), so fuel equal to the
input length (as supplied by `wbSub`) never runs out. -/
def wbScanF (key repl : Str) : Nat → Option Char → Str → Str
  | 0, _, l => l
  | _ + 1, _, [] => []
  | fuel + 1, prev, c :: rest =>
    if canMatch key prev (c :: rest) then
      repl ++ wbScanF key repl fuel ((c :: rest).take key.length).getLast?
        ((c :: rest).drop key.length)
    else c :: wbScanF key repl fuel (some c) rest

def wbSub (key repl s : Str) : Str := wbScanF key repl s.length none s

/-- `Pattern.search`: is there a match anywhere? -/
def wbSearchAux (key : Str) : Option Char → Str → Bool
  | _, [] => false
  | prev, c :: rest => canMatch key prev (c :: rest) || wbSearchAux key (some c) rest

def wbSearch (key s : Str) : Bool := wbSearchAux key none s

/-- The unmatched pieces of the scan: `wbScanF` is their interleaving with
the replacement (proved below), so the replacement is inserted verbatim.
Independent of the replacement string. -/
def wbPiecesF (key : Str) : Nat → Option Char → Str → List Str
  | 0, _, l => [l]
  | _ + 1, _, [] => [[]]
  | fuel + 1, prev, c :: rest =>
    if canMatch key prev (c :: rest) then
      [] :: wbPiecesF key fuel ((c :: rest).take key.length).getLast?
        ((c :: rest).drop key.length)
    else
      match wbPiecesF key fuel (some c) rest with
      | [] => [[c]]
      | p :: ps => (c :: p) :: ps

def dedupScanF : Nat → Option Char → Str → Str
  | 0, _, l => l
  | _ + 1, _, [] => []
  | fuel + 1, prev, c :: rest =>
    if isWordChar c && !isWordOpt prev then
      let w := (c :: rest).takeWhile isWordChar
      let r2 := ((c :: rest).dropWhile isWordChar).dropWhile isSpaceChar
      if !(((c :: rest).dropWhile isWordChar).takeWhile isSpaceChar).isEmpty &&
          decide (lower (r2.take w.length) = lower w) &&
          (isWordOpt (r2.take w.length).getLast? != isWordOpt (r2.drop w.length).head?) then
        w ++ dedupScanF fuel (r2.take w.length).getLast? (r2.drop w.length)
      else c :: dedupScanF fuel (some c) rest
    else c :: dedupScanF fuel (some c) rest

def dedupSub (s : Str) : Str := dedupScanF s.length none s

def ENDPUNCT : Str := ['.', '!', '?', '…', ':']

/-- `if result and result[0].isalpha(): result = result[0].upper() + result[1:]` -/
def capFirst : Str → Str
  | [] => []
  | c :: rest => if isAlphaChar c then upperChar c :: rest else c :: rest

/-- `if result and result[-1] not in END_PUNCT: result += "."` -/
def addDot (r : Str) : Str :=
  match r.getLast? with
  | none => r
  | some c => if c ∈ ENDPUNCT then r else r ++ ['.']

def punctFix (t : Str) : Str := addDot (capFirst (strip t))

structure Operation where
  op : Str
  detail : Str
  before : Str
  after : Str
  confidence : ℚ
  source : Str
deriving DecidableEq, Repr

/-- The f-string detail `f"'{key}' → '{val}'"`. -/
def subDetail (key val : Str) : Str :=
  [quoteChar] ++ key ++ [quoteChar, ' ', '→', ' ', quoteChar] ++ val ++ [quoteChar]

abbrev AList := List (Str × Str)

/-- One iteration of the replacement loops (fixes 1 and 2 of `apply_fixes`):
skip empty keys, search, substitute, and record an operation if the text
changed.  Fix 1 instantiates `opName`/`src`/`conf` with
`glossary_normalization`/`glossary`/`0.9`; fix 2 with
`language_error_fix`/`llm_error`/`0.85`. -/
def replaceStep (opName src : Str) (conf : ℚ) (map : AList)
    (acc : Str × List Operation) (key : Str) : Str × List Operation :=
  if key.isEmpty then acc
  else
    let val := (dictGet key map).getD []
    if wbSearch key acc.1 then
      let r2 := wbSub key val acc.1
      if r2 ≠ acc.1 then
        (r2, acc.2 ++ [⟨opName, subDetail key val, acc.1, r2, conf, src⟩])
      else (r2, acc.2)
    else acc

/-- Stable insertion into a length-descending list; `sortDesc` models Python's
stable `sorted(keys, key=len, reverse=True)`. -/
def insertByLen (x : Str) : List Str → List Str
  | [] => [x]
  | y :: ys => if y.length > x.length then y :: insertByLen x ys else x :: y :: ys

def sortDesc : List Str → List Str
  | [] => []
  | x :: xs => insertByLen x (sortDesc xs)

def replacePass (opName src : Str) (conf : ℚ) (map : AList) (t : Str) :
    Str × List Operation :=
  (sortDesc (dictKeys map)).foldl (replaceStep opName src conf map) (t, [])

def glossPass : AList → Str → Str × List Operation :=
  replacePass (cs "glossary_normalization") (cs "glossary") conf09

def errPass : AList → Str → Str × List Operation :=
  replacePass (cs "language_error_fix") (cs "llm_error") conf085

def dedupPass (t : Str) : Str × List Operation :=
  let r := dedupSub t
  if r ≠ t then
    (r, [⟨cs "deduplication", cs "Removed immediate repetition", t, r, conf09, cs "rule"⟩])
  else (r, [])

def punctPass (t : Str) : Str × List Operation :=
  let r := punctFix t
  if r ≠ t then
    (r, [⟨cs "punctuation", cs "Capitalization + ending punctuation", t, r, conf08, cs "rule"⟩])
  else (r, [])

/-- `apply_fixes(text, alias_map, error_map)`.  (A `None` error map is the
empty dict, handled by the caller passing `[]`.) -/
def applyFixes (text : Str) (amap emap : AList) : Str × List Operation :=
  let p1 := glossPass amap text
  let p2 := errPass emap p1.1
  let p3 := dedupPass p2.1
  let p4 := punctPass p3.1
  (p4.1, p1.2 ++ p2.2 ++ p3.2 ++ p4.2)

structure GlossEntry where
  term : Str
  aliases : List Str
  confidence : ℚ
deriving DecidableEq, Repr

structure ErrEntry where
  incorrect_text : Str
  correct_form : Str
  confidence : ℚ
deriving DecidableEq, Repr

structure Ctx where
  glossary : List GlossEntry
  language_errors : List ErrEntry
deriving DecidableEq, Repr

/-- The inner loop over one accepted glossary entry's aliases. -/
def addAliases (term : Str) (m : AList) (aliases : List Str) : AList :=
  aliases.foldl
    (fun m a =>
      let a2 := strip a
      if a2.isEmpty then m else dictSet (norm a2) term m)
    m

/-- Processing of one glossary entry inside `build_alias_map`. -/
def addGloss (minConf : ℚ) (m : AList) (g : GlossEntry) : AList :=
  let term := strip g.term
  if term = [] ∨ g.confidence < minConf then m
  else addAliases term (dictSet (norm term) term m) g.aliases

/-- `build_alias_map(context_inferred, min_conf)`; the source default for
`min_conf` is `0.6` (callers below pass it explicitly). -/
def buildAliasMap (ctx : Ctx) (minConf : ℚ) : AList :=
  ctx.glossary.foldl (addGloss minConf) []

/-- Processing of one language error inside `build_error_map`. -/
def addErr (minConf : ℚ) (m : AList) (e : ErrEntry) : AList :=
  let incorrect := strip e.incorrect_text
  let correct := strip e.correct_form
  if incorrect = [] ∨ correct = [] ∨ e.confidence < minConf then m
  else dictSet (norm incorrect) correct m

/-- `build_error_map(context_inferred, min_conf)`; the source default for
`min_conf` is `0.80`, but `edit_transcript` overrides it with `0.70`. -/
def buildErrorMap (ctx : Ctx) (minConf : ℚ) : AList :=
  ctx.language_errors.foldl (addErr minConf) []

inductive PyVal where
  | vStr (s : Str)
  | vNone
deriving DecidableEq, Repr

/-- Python `str(v)`. -/
def pyToStr : PyVal → Str
  | .vStr s => s
  | .vNone => cs "None"

abbrev Msg := List (Str × PyVal)

/-- `str(m.get("content", ""))`. -/
def contentStr (m : Msg) : Str :=
  match dictGet (cs "content") m with
  | none => []
  | some v => pyToStr v

structure Transcript where
  messages : List Msg
  context_inferred : Ctx
deriving DecidableEq, Repr

structure SegReport where
  index : Nat
  start_time : Option PyVal
  end_time : Option PyVal
  speaker : Option PyVal
  changed : Bool
  operations : List Operation
deriving DecidableEq, Repr

/-- The fixed policy flags recorded in the report. -/
def policyFlags : List (Str × Bool) :=
  [(cs "glossary_normalization", true), (cs "language_error_correction", true),
   (cs "deduplication", true), (cs "light_punctuation", true),
   (cs "timestamps_preserved", true), (cs "speaker_labels_preserved", true)]

structure EditorReport where
  policy : List (Str × Bool)
  total_segments : Nat
  segments_modified : Nat
  segment_reports : List SegReport
deriving DecidableEq, Repr

/-- The output transcript: `dict(obj)` with `messages` replaced and the
editor report attached under `transformation_report.editor`. -/
structure OutObj where
  messages : List Msg
  context_inferred : Ctx
  editor_report : EditorReport
deriving DecidableEq, Repr

/-- One iteration of the segment loop of `edit_transcript`: apply the fixes
to the message content and build the `{**m, "content": fixed}` copy plus the
segment report. -/
def editSegment (amap emap : AList) (i : Nat) (m : Msg) : Msg × SegReport :=
  let original := contentStr m
  let fx := applyFixes original amap emap
  (dictSet (cs "content") (.vStr fx.1) m,
   { index := i
     start_time := dictGet (cs "start_time") m
     end_time := dictGet (cs "end_time") m
     speaker := dictGet (cs "speaker") m
     changed := decide (original ≠ fx.1)
     operations := fx.2 })

/-- `for i, m in enumerate(messages)`. -/
def editSegments (amap emap : AList) : Nat → List Msg → List (Msg × SegReport)
  | _, [] => []
  | i, m :: ms => editSegment amap emap i m :: editSegments amap emap (i + 1) ms

/-- `edit_transcript(obj)`: builds the two maps (alias map with the `0.6`
default, error map with the explicit `0.70` override), edits every segment,
and assembles the transformation report. -/
def editTranscript (obj : Transcript) : OutObj :=
  let amap := buildAliasMap obj.context_inferred conf06
  let emap := buildErrorMap obj.context_inferred conf07
  let pairs := editSegments amap emap 0 obj.messages
  { messages := pairs.map Prod.fst
    context_inferred := obj.context_inferred
    editor_report :=
      { policy := policyFlags
        total_segments := obj.messages.length
        segments_modified := (pairs.map Prod.snd).countP (fun r => r.changed)
        segment_reports := pairs.map Prod.snd } }

/-- `Chain t ops r`: the operations form a chain of full-text snapshots from
`t` to `r`, each with `before` equal to the running text and `after` the
changed text. -/
def Chain : Str → List Operation → Str → Prop
  | t, [], r => r = t
  | t, o :: ops, r => o.before = t ∧ o.after ≠ o.before ∧ Chain o.after ops r

/-- No position of `s` carries a word-boundary-delimited, case-insensitive
occurrence of `key`. -/
def noOccur (key s : Str) : Bool :=
  (List.range (s.length + 1)).all fun i => !(canMatch key ((s.take i).getLast?) (s.drop i))

/-- Whether a glossary entry inserts the key `k` into the alias map (its
own normalized term or one of its non-empty normalized aliases). -/
def writesKey (g : GlossEntry) (k : Str) : Bool :=
  decide (norm (strip g.term) = k) ||
    g.aliases.any (fun a => !(strip a).isEmpty && decide (norm (strip a) = k))

/-! ### Theorems -/

theorem length_dropWhile_le (p : Char → Bool) (l : Str) :
    (l.dropWhile p).length ≤ l.length := by
  induction l with
  | nil => simp [List.dropWhile]
  | cons c rest ih =>
    by_cases h : p c
    · simp [List.dropWhile, h]; omega
    · simp [List.dropWhile, h]

theorem conf06_eq : conf06 = 0.6 := by
  rw [conf06, Rat.mk'_eq_divInt, Rat.divInt_eq_div]; norm_num

theorem conf07_eq : conf07 = 0.70 := by
  rw [conf07, Rat.mk'_eq_divInt, Rat.divInt_eq_div]; norm_num

theorem conf08_eq : conf08 = 0.8 := by
  rw [conf08, Rat.mk'_eq_divInt, Rat.divInt_eq_div]; norm_num

theorem conf085_eq : conf085 = 0.85 := by
  rw [conf085, Rat.mk'_eq_divInt, Rat.divInt_eq_div]; norm_num

theorem conf09_eq : conf09 = 0.9 := by
  rw [conf09, Rat.mk'_eq_divInt, Rat.divInt_eq_div]; norm_num

theorem dictGet_dictSet_self {β : Type} (k : Str) (v : β) (d : List (Str × β)) :
    dictGet k (dictSet k v d) = some v := by
  induction d with
  | nil => simp [dictSet, dictGet]
  | cons p rest ih =>
    obtain ⟨a, b⟩ := p
    by_cases h : a = k
    · simp [dictSet, dictGet, h]
    · simp [dictSet, dictGet, h, ih]

theorem dictGet_dictSet_ne {β : Type} {k k2 : Str} (hne : k2 ≠ k) (v : β)
    (d : List (Str × β)) : dictGet k (dictSet k2 v d) = dictGet k d := by
  induction d with
  | nil => simp [dictSet, dictGet, hne]
  | cons p rest ih =>
    obtain ⟨a, b⟩ := p
    by_cases h : a = k2
    · subst h
      simp [dictSet, dictGet, hne]
    · by_cases h2 : a = k
      · subst h2
        simp [dictSet, dictGet, h]
      · simp [dictSet, dictGet, h, h2, ih]

theorem dictGet_dictSet_isSome {β : Type} {k : Str} {d : List (Str × β)}
    (h : (dictGet k d).isSome = true) (k2 : Str) (v : β) :
    (dictGet k (dictSet k2 v d)).isSome = true := by
  by_cases he : k2 = k
  · subst he; simp [dictGet_dictSet_self]
  · rwa [dictGet_dictSet_ne he]

theorem canMatch_key_ne_nil {key : Str} {prev : Option Char} {rest : Str}
    (h : canMatch key prev rest = true) : key ≠ [] := by
  intro hkey
  subst hkey
  simp [canMatch] at h

theorem canMatch_nil (key : Str) (prev : Option Char) :
    canMatch key prev [] = false := by
  cases key with
  | nil => simp [canMatch]
  | cons c rest => simp [canMatch, lower]

theorem tlookup_mem_values {c u : Char} :
    ∀ {ps : List (Char × Char)}, tlookup c ps = some u → u ∈ ps.map Prod.snd := by
  intro ps
  induction ps with
  | nil => intro h; simp [tlookup] at h
  | cons p rest ih =>
    obtain ⟨a, b⟩ := p
    intro h
    by_cases hc : c = a
    · rw [tlookup, if_pos hc] at h
      simp at h
      simp [h]
    · rw [tlookup, if_neg hc] at h
      simp [ih h]

theorem upperChar_idem (c : Char) : upperChar (upperChar c) = upperChar c := by
  unfold upperChar
  cases h : tlookup c upperPairs with
  | none => simp [h]
  | some u =>
    have hu : u ∈ upperPairs.map Prod.snd := tlookup_mem_values h
    have hnone : ∀ x ∈ upperPairs.map Prod.snd, tlookup x upperPairs = none := by decide
    simp [h, hnone u hu]

theorem isAlphaChar_upperChar {c : Char} (h : isAlphaChar c = true) :
    isAlphaChar (upperChar c) = true := by
  unfold upperChar
  cases hl : tlookup c upperPairs with
  | none => simpa [hl] using h
  | some u =>
    have hu : u ∈ upperPairs.map Prod.snd := tlookup_mem_values hl
    have halpha : ∀ x ∈ upperPairs.map Prod.snd, isAlphaChar x = true := by decide
    simp [hl, halpha u hu]

theorem isSpaceChar_upperChar {c : Char} (h : isSpaceChar c = false) :
    isSpaceChar (upperChar c) = false := by
  unfold upperChar
  cases hl : tlookup c upperPairs with
  | none => simpa [hl] using h
  | some u =>
    have hu : u ∈ upperPairs.map Prod.snd := tlookup_mem_values hl
    have hns : ∀ x ∈ upperPairs.map Prod.snd, isSpaceChar x = false := by decide
    simp [hl, hns u hu]

theorem dropWhile_head?_false {p : Char → Bool} :
    ∀ {l : Str} {c : Char}, (l.dropWhile p).head? = some c → p c = false := by
  intro l
  induction l with
  | nil => intro c h; simp [List.dropWhile] at h
  | cons a rest ih =>
    intro c h
    by_cases hp : p a = true
    · rw [List.dropWhile_cons, if_pos hp] at h
      exact ih h
    · rw [List.dropWhile_cons, if_neg hp] at h
      simp at h
      rw [← h]
      simpa using hp

theorem getLast?_cons_ne {c : Char} {r : Str} (h : r ≠ []) :
    (c :: r).getLast? = r.getLast? := by
  cases r with
  | nil => exact absurd rfl h
  | cons b rs => simp [List.getLast?_cons_cons]

theorem dropWhile_getLast? {p : Char → Bool} :
    ∀ {l : Str}, (l.dropWhile p) ≠ [] → (l.dropWhile p).getLast? = l.getLast? := by
  intro l
  induction l with
  | nil => intro h; simp [List.dropWhile] at h
  | cons a rest ih =>
    intro h
    by_cases hp : p a = true
    · rw [List.dropWhile_cons, if_pos hp] at h ⊢
      have hrest : rest ≠ [] := by
        intro hnil
        rw [hnil] at h
        simp [List.dropWhile] at h
      rw [ih h, getLast?_cons_ne hrest]
    · rw [List.dropWhile_cons, if_neg hp]

theorem strip_head_not_space {l : Str} {h : Char}
    (hh : (strip l).head? = some h) : isSpaceChar h = false := by
  unfold strip at hh
  rw [List.head?_reverse] at hh
  have hw : (l.dropWhile isSpaceChar).reverse.dropWhile isSpaceChar ≠ [] := by
    intro hnil
    rw [hnil] at hh
    simp at hh
  rw [dropWhile_getLast? hw, List.getLast?_reverse] at hh
  exact dropWhile_head?_false hh

theorem strip_getLast_not_space {l : Str} {h : Char}
    (hh : (strip l).getLast? = some h) : isSpaceChar h = false := by
  unfold strip at hh
  rw [List.getLast?_reverse] at hh
  exact dropWhile_head?_false hh

theorem dropWhile_eq_self {p : Char → Bool} {l : Str}
    (hh : ∀ c, l.head? = some c → p c = false) : l.dropWhile p = l := by
  cases l with
  | nil => simp [List.dropWhile]
  | cons a rest =>
    rw [List.dropWhile_cons, if_neg]
    simp [hh a rfl]

theorem strip_eq_self {l : Str}
    (h1 : ∀ c, l.head? = some c → isSpaceChar c = false)
    (h2 : ∀ c, l.getLast? = some c → isSpaceChar c = false) : strip l = l := by
  unfold strip
  rw [dropWhile_eq_self h1,
    dropWhile_eq_self (fun c hc => h2 c (by rwa [List.head?_reverse] at hc)),
    List.reverse_reverse]

theorem addDot_some {r : Str} {d : Char} (hL : r.getLast? = some d) :
    addDot r = if d ∈ ENDPUNCT then r else r ++ ['.'] := by
  unfold addDot
  rw [hL]

theorem capFirst_cons (c : Char) (r : Str) :
    capFirst (c :: r) = (if isAlphaChar c then upperChar c else c) :: r := by
  by_cases h : isAlphaChar c = true
  · simp [capFirst, h]
  · simp [capFirst, h]

/-- The punctuation pass is idempotent: its output is stripped, starts with
a non-lowercase-able head, and ends in terminal punctuation. -/
theorem punctFix_idem (t : Str) : punctFix (punctFix t) = punctFix t := by
  unfold punctFix
  cases hu : strip t with
  | nil => rfl
  | cons c cs0 =>
    have hcns : isSpaceChar c = false :=
      strip_head_not_space (l := t) (by rw [hu]; rfl)
    rw [capFirst_cons]
    set c2 := if isAlphaChar c then upperChar c else c with hc2
    have hc2ns : isSpaceChar c2 = false := by
      rw [hc2]
      by_cases ha : isAlphaChar c = true
      · rw [if_pos ha]; exact isSpaceChar_upperChar hcns
      · rw [if_neg ha]; exact hcns
    have capFix : ∀ r : Str, capFirst (c2 :: r) = c2 :: r := by
      intro r
      rw [capFirst_cons]
      by_cases ha : isAlphaChar c = true
      · have hc2u : c2 = upperChar c := by rw [hc2, if_pos ha]
        rw [hc2u, if_pos (isAlphaChar_upperChar ha), upperChar_idem]
      · have hc2u : c2 = c := by rw [hc2, if_neg ha]
        rw [hc2u, if_neg ha]
    have lastNotSpace : ∀ d, (c2 :: cs0).getLast? = some d → isSpaceChar d = false := by
      intro d hd
      cases hcs : cs0 with
      | nil =>
        rw [hcs] at hd
        simp at hd
        rw [← hd]
        exact hc2ns
      | cons b bs =>
        rw [hcs, getLast?_cons_ne (by simp)] at hd
        refine strip_getLast_not_space (l := t) ?_
        rw [hu, getLast?_cons_ne (by simp [hcs]), hcs]
        exact hd
    cases hL : (c2 :: cs0).getLast? with
    | none => simp at hL
    | some d =>
      rw [addDot_some hL]
      by_cases hd : d ∈ ENDPUNCT
      · rw [if_pos hd]
        rw [strip_eq_self (fun x hx => by simp at hx; rw [← hx]; exact hc2ns)
          (fun x hx => lastNotSpace x hx)]
        rw [capFix, addDot_some hL, if_pos hd]
      · rw [if_neg hd]
        have hcons : (c2 :: cs0) ++ ['.'] = c2 :: (cs0 ++ ['.']) := by simp
        have hlast : (c2 :: (cs0 ++ ['.'])).getLast? = some '.' := by
          rw [← hcons]
          exact List.getLast?_concat _
        rw [hcons]
        rw [strip_eq_self (fun x hx => by simp at hx; rw [← hx]; exact hc2ns)
          (fun x hx => by rw [hlast] at hx; simp at hx; rw [← hx]; decide)]
        rw [capFix, addDot_some hlast, if_pos (by decide)]

theorem chain_snoc {a b : Str} {ops : List Operation} (h : Chain a ops b)
    {o : Operation} (hb : o.before = b) (hne : o.after ≠ o.before) :
    Chain a (ops ++ [o]) o.after := by
  induction ops generalizing a with
  | nil =>
    simp only [Chain] at h
    subst h
    exact ⟨hb, hne, rfl⟩
  | cons o2 rest ih =>
    obtain ⟨h1, h2, h3⟩ := h
    exact ⟨h1, h2, ih h3⟩

theorem chain_append {a b c : Str} {ops1 ops2 : List Operation}
    (h1 : Chain a ops1 b) (h2 : Chain b ops2 c) : Chain a (ops1 ++ ops2) c := by
  induction ops1 generalizing a with
  | nil =>
    simp only [Chain] at h1
    subst h1
    simpa using h2
  | cons o rest ih =>
    obtain ⟨ha, hb, hc⟩ := h1
    exact ⟨ha, hb, ih hc⟩

theorem replaceStep_chain {opName src : Str} {conf : ℚ} {map : AList}
    {a : Str} {acc : Str × List Operation} (h : Chain a acc.2 acc.1) (key : Str) :
    Chain a (replaceStep opName src conf map acc key).2
      (replaceStep opName src conf map acc key).1 := by
  by_cases hk : key.isEmpty
  · simpa [replaceStep, hk] using h
  · by_cases hs : wbSearch key acc.1
    · by_cases hne : wbSub key ((dictGet key map).getD []) acc.1 ≠ acc.1
      · have hsnoc := chain_snoc h
          (o := ⟨opName, subDetail key ((dictGet key map).getD []), acc.1,
            wbSub key ((dictGet key map).getD []) acc.1, conf, src⟩) rfl hne
        simpa [replaceStep, hk, hs, hne] using hsnoc
      · push_neg at hne
        simpa [replaceStep, hk, hs, hne] using h
    · simpa [replaceStep, hk, hs] using h

theorem replacePass_fold_chain (opName src : Str) (conf : ℚ) (map : AList)
    (ks : List Str) (a : Str) :
    ∀ acc : Str × List Operation, Chain a acc.2 acc.1 →
      Chain a (ks.foldl (replaceStep opName src conf map) acc).2
        (ks.foldl (replaceStep opName src conf map) acc).1 := by
  induction ks with
  | nil => intro acc h; simpa using h
  | cons k rest ih =>
    intro acc h
    exact ih _ (replaceStep_chain h k)

theorem replacePass_chain (opName src : Str) (conf : ℚ) (map : AList) (t : Str) :
    Chain t (replacePass opName src conf map t).2 (replacePass opName src conf map t).1 :=
  replacePass_fold_chain opName src conf map _ t (t, []) rfl

theorem dedupPass_chain (t : Str) : Chain t (dedupPass t).2 (dedupPass t).1 := by
  unfold dedupPass
  by_cases h : dedupSub t ≠ t
  · rw [if_pos h]
    exact ⟨rfl, h, rfl⟩
  · rw [if_neg h]
    push_neg at h
    simp [Chain, h]

theorem punctPass_chain (t : Str) : Chain t (punctPass t).2 (punctPass t).1 := by
  unfold punctPass
  by_cases h : punctFix t ≠ t
  · rw [if_pos h]
    exact ⟨rfl, h, rfl⟩
  · rw [if_neg h]
    push_neg at h
    simp [Chain, h]

theorem mem_insertByLen {x y : Str} :
    ∀ {l : List Str}, y ∈ insertByLen x l → y = x ∨ y ∈ l := by
  intro l
  induction l with
  | nil => intro h; simp [insertByLen] at h; simp [h]
  | cons z zs ih =>
    intro h
    by_cases hz : z.length > x.length
    · rw [insertByLen, if_pos hz] at h
      rcases List.mem_cons.mp h with h1 | h2
      · right; simp [h1]
      · rcases ih h2 with h3 | h4
        · left; exact h3
        · right; simp [h4]
    · rw [insertByLen, if_neg hz] at h
      rcases List.mem_cons.mp h with h1 | h2
      · left; exact h1
      · right; exact h2

theorem pairwise_insertByLen {x : Str} {l : List Str}
    (h : l.Pairwise (fun a b => b.length ≤ a.length)) :
    (insertByLen x l).Pairwise (fun a b => b.length ≤ a.length) := by
  induction l with
  | nil => simp [insertByLen]
  | cons z zs ih =>
    rw [List.pairwise_cons] at h
    obtain ⟨hz, hzs⟩ := h
    by_cases hlen : z.length > x.length
    · rw [insertByLen, if_pos hlen, List.pairwise_cons]
      refine ⟨?_, ih hzs⟩
      intro y hy
      rcases mem_insertByLen hy with h1 | h2
      · rw [h1]; omega
      · exact hz y h2
    · rw [insertByLen, if_neg hlen, List.pairwise_cons]
      refine ⟨?_, List.pairwise_cons.mpr ⟨hz, hzs⟩⟩
      intro y hy
      rcases List.mem_cons.mp hy with h1 | h2
      · rw [h1]; omega
      · have := hz y h2; omega

theorem sortDesc_sorted (l : List Str) :
    (sortDesc l).Pairwise (fun a b => b.length ≤ a.length) := by
  induction l with
  | nil => simp [sortDesc]
  | cons x xs ih => exact pairwise_insertByLen ih

theorem replacePass_fold_id (opName src : Str) (conf : ℚ) (map : AList) :
    ∀ (ks : List Str) (s : Str) (ops : List Operation),
      (∀ k ∈ ks, wbSub k ((dictGet k map).getD []) s = s) →
      ks.foldl (replaceStep opName src conf map) (s, ops) = (s, ops) := by
  intro ks
  induction ks with
  | nil => intro s ops _; rfl
  | cons k rest ih =>
    intro s ops h
    have hstep : replaceStep opName src conf map (s, ops) k = (s, ops) := by
      by_cases hk : k.isEmpty
      · simp [replaceStep, hk]
      · by_cases hs : wbSearch k s
        · simp [replaceStep, hk, hs, h k (by simp)]
        · simp [replaceStep, hk, hs]
    rw [List.foldl_cons, hstep]
    exact ih s ops (fun k2 hk2 => h k2 (by simp [hk2]))

theorem replacePass_fold_nil_text (opName src : Str) (conf : ℚ) (map : AList) :
    ∀ (ks : List Str) (ops : List Operation),
      ks.foldl (replaceStep opName src conf map) ([], ops) = ([], ops) := by
  intro ks
  induction ks with
  | nil => intro ops; rfl
  | cons k rest ih =>
    intro ops
    have hstep : replaceStep opName src conf map ([], ops) k = ([], ops) := by
      by_cases hk : k.isEmpty
      · simp [replaceStep, hk]
      · simp [replaceStep, hk, wbSearch, wbSearchAux]
    rw [List.foldl_cons, hstep, ih]

theorem dedupPass_fst (t : Str) : (dedupPass t).1 = dedupSub t := by
  simp only [dedupPass]
  split <;> rfl

theorem punctPass_fst (t : Str) : (punctPass t).1 = punctFix t := by
  simp only [punctPass]
  split <;> rfl

theorem applyFixes_fst (t : Str) (amap emap : AList) :
    (applyFixes t amap emap).1 =
      punctFix (dedupSub (errPass emap (glossPass amap t).1).1) := by
  simp only [applyFixes]
  rw [punctPass_fst, dedupPass_fst]

theorem applyFixes_nil_text (amap emap : AList) : applyFixes [] amap emap = ([], []) := by
  have h1 : glossPass amap [] = ([], []) :=
    replacePass_fold_nil_text _ _ _ amap _ []
  have h2 : errPass emap [] = ([], []) :=
    replacePass_fold_nil_text _ _ _ emap _ []
  simp only [applyFixes, h1, h2]
  rfl

theorem wbPiecesF_ne_nil (key : Str) :
    ∀ (fuel : Nat) (prev : Option Char) (l : Str), wbPiecesF key fuel prev l ≠ [] := by
  intro fuel
  induction fuel with
  | zero => intro prev l; simp [wbPiecesF]
  | succ n ih =>
    intro prev l
    cases l with
    | nil => simp [wbPiecesF]
    | cons c rest =>
      by_cases h : canMatch key prev (c :: rest)
      · simp [wbPiecesF, h]
      · simp only [wbPiecesF, h, Bool.false_eq_true, if_false]
        cases hp : wbPiecesF key n (some c) rest with
        | nil => simp
        | cons p ps => simp

theorem intercalate_nil_cons (sep : Str) {ps : List Str} (hps : ps ≠ []) :
    List.intercalate sep ([] :: ps) = sep ++ List.intercalate sep ps := by
  cases ps with
  | nil => exact absurd rfl hps
  | cons q qs => simp [List.intercalate, List.intersperse]

theorem intercalate_cons_head (sep : Str) (c : Char) (p : Str) (ps : List Str) :
    List.intercalate sep ((c :: p) :: ps) = c :: List.intercalate sep (p :: ps) := by
  cases ps with
  | nil => simp [List.intercalate, List.intersperse]
  | cons q qs => simp [List.intercalate, List.intersperse]

theorem wbScanF_eq_intercalate (key repl : Str) :
    ∀ (fuel : Nat) (prev : Option Char) (l : Str),
      wbScanF key repl fuel prev l = List.intercalate repl (wbPiecesF key fuel prev l) := by
  intro fuel
  induction fuel with
  | zero => intro prev l; simp [wbScanF, wbPiecesF, List.intercalate, List.intersperse]
  | succ n ih =>
    intro prev l
    cases l with
    | nil => simp [wbScanF, wbPiecesF, List.intercalate, List.intersperse]
    | cons c rest =>
      by_cases h : canMatch key prev (c :: rest)
      · simp only [wbScanF, wbPiecesF, h, if_true]
        rw [intercalate_nil_cons repl (wbPiecesF_ne_nil key n _ _), ih]
      · simp only [wbScanF, wbPiecesF, h, Bool.false_eq_true, if_false]
        cases hp : wbPiecesF key n (some c) rest with
        | nil => exact absurd hp (wbPiecesF_ne_nil key n _ _)
        | cons p ps =>
          rw [intercalate_cons_head, ← hp, ih]

theorem wbScanF_no_match (key repl s : Str)
    (hno : ∀ i, canMatch key ((s.take i).getLast?) (s.drop i) = false) :
    ∀ (rest : Str) (fuel i : Nat), s.drop i = rest → rest.length ≤ fuel →
      wbScanF key repl fuel ((s.take i).getLast?) rest = rest := by
  intro rest
  induction rest with
  | nil =>
    intro fuel i _ _
    cases fuel <;> rfl
  | cons c cs2 ih =>
    intro fuel i hdrop hfuel
    cases fuel with
    | zero => simp at hfuel
    | succ n =>
      have hm : canMatch key ((s.take i).getLast?) (c :: cs2) = false := by
        have hi := hno i
        rwa [hdrop] at hi
      have hdrop2 : s.drop (i + 1) = cs2 := by
        have : s.drop (i + 1) = (s.drop i).drop 1 := by
          rw [List.drop_drop]
        rw [this, hdrop]
        rfl
      have hgetElem : s[i]? = some c := by
        have h0 : (s.drop i)[0]? = some c := by rw [hdrop]; simp
        rwa [List.getElem?_drop, Nat.add_zero] at h0
      have htake2 : (s.take (i + 1)).getLast? = some c := by
        rw [List.take_succ, hgetElem]
        exact List.getLast?_concat _
      simp only [wbScanF, hm, Bool.false_eq_true, if_false]
      have hrec := ih n (i + 1) hdrop2 (by simp only [List.length_cons] at hfuel; omega)
      rw [htake2] at hrec
      rw [hrec]

theorem wbSub_eq_self_of_noOccur {key s : Str} (repl : Str) (h : noOccur key s = true) :
    wbSub key repl s = s := by
  have hno : ∀ i, canMatch key ((s.take i).getLast?) (s.drop i) = false := by
    intro i
    by_cases hi : i < s.length + 1
    · simp only [noOccur, List.all_eq_true, List.mem_range] at h
      simpa using h i hi
    · have hd : s.drop i = [] := by
        apply List.drop_eq_nil_of_le
        omega
      rw [hd]
      exact canMatch_nil key _
  have hmain := wbScanF_no_match key repl s hno s s.length 0 rfl (le_refl _)
  simpa [wbSub] using hmain

theorem replacePass_fold_ops_kind (opName src : Str) (conf : ℚ) (map : AList) :
    ∀ (ks : List Str) (acc : Str × List Operation),
      (∀ o ∈ acc.2, o.op = opName) →
      ∀ o ∈ (ks.foldl (replaceStep opName src conf map) acc).2, o.op = opName := by
  intro ks
  induction ks with
  | nil => intro acc h; exact h
  | cons k rest ih =>
    intro acc h
    rw [List.foldl_cons]
    apply ih
    intro o ho
    by_cases hk : k.isEmpty
    · simp only [replaceStep, hk, if_true] at ho
      exact h o ho
    · by_cases hs : wbSearch k acc.1
      · simp only [replaceStep, hk, Bool.false_eq_true, if_false, hs, if_true] at ho
        by_cases hne : wbSub k ((dictGet k map).getD []) acc.1 ≠ acc.1
        · rw [if_pos hne] at ho
          rcases List.mem_append.mp ho with h1 | h2
          · exact h o h1
          · simp at h2
            rw [h2]
        · rw [if_neg hne] at ho
          exact h o ho
      · simp only [replaceStep, hk, Bool.false_eq_true, if_false, hs] at ho
        exact h o ho

theorem replacePass_ops_kind (opName src : Str) (conf : ℚ) (map : AList) (t : Str) :
    ∀ o ∈ (replacePass opName src conf map t).2, o.op = opName :=
  replacePass_fold_ops_kind opName src conf map _ (t, []) (by simp)

theorem dedupPass_snd (t : Str) :
    (dedupPass t).2 = if dedupSub t ≠ t then
      [⟨cs "deduplication", cs "Removed immediate repetition", t, dedupSub t, conf09,
        cs "rule"⟩]
    else [] := by
  simp only [dedupPass]
  split <;> rfl

theorem punctPass_ops_kind (t : Str) :
    ∀ o ∈ (punctPass t).2, o.op = cs "punctuation" := by
  intro o ho
  simp only [punctPass] at ho
  by_cases h : punctFix t ≠ t
  · rw [if_pos h] at ho
    simp at ho
    rw [ho]
  · rw [if_neg h] at ho
    simp at ho

theorem addAliases_cons (term : Str) (m : AList) (a : Str) (rest : List Str) :
    addAliases term m (a :: rest) =
      addAliases term
        (if (strip a).isEmpty then m else dictSet (norm (strip a)) term m) rest := by
  simp only [addAliases, List.foldl_cons]

theorem addAliases_get_self (term k : Str) :
    ∀ (as2 : List Str) (m : AList), dictGet k m = some term →
      dictGet k (addAliases term m as2) = some term := by
  intro as2
  induction as2 with
  | nil => intro m h; exact h
  | cons a rest ih =>
    intro m h
    have hstep :
        dictGet k (if (strip a).isEmpty then m else dictSet (norm (strip a)) term m) =
          some term := by
      by_cases he : (strip a).isEmpty
      · simpa [he] using h
      · rw [if_neg (by simp [he])]
        by_cases keq : norm (strip a) = k
        · rw [keq]
          exact dictGet_dictSet_self k term m
        · rw [dictGet_dictSet_ne keq]
          exact h
    rw [addAliases_cons]
    exact ih _ hstep

theorem addAliases_get_preserve (term k : Str) :
    ∀ (as2 : List Str), (∀ a ∈ as2, strip a ≠ [] → norm (strip a) ≠ k) →
      ∀ m : AList, dictGet k (addAliases term m as2) = dictGet k m := by
  intro as2
  induction as2 with
  | nil => intro _ m; rfl
  | cons a rest ih =>
    intro has m
    have hstep :
        dictGet k (if (strip a).isEmpty then m else dictSet (norm (strip a)) term m) =
          dictGet k m := by
      by_cases he : (strip a).isEmpty
      · simp [he]
      · rw [if_neg (by simp [he])]
        exact dictGet_dictSet_ne
          (has a (by simp) (by simpa using he)) term m
    rw [addAliases_cons, ih (fun a2 ha2 => has a2 (by simp [ha2])) _, hstep]

theorem addAliases_isSome (term : Str) {k : Str} :
    ∀ (as2 : List Str) (m : AList), (dictGet k m).isSome = true →
      (dictGet k (addAliases term m as2)).isSome = true := by
  intro as2
  induction as2 with
  | nil => intro m h; exact h
  | cons a rest ih =>
    intro m h
    have hstep :
        (dictGet k (if (strip a).isEmpty then m else dictSet (norm (strip a)) term m)).isSome
          = true := by
      by_cases he : (strip a).isEmpty
      · simpa [he] using h
      · rw [if_neg (by simp [he])]
        exact dictGet_dictSet_isSome h _ _
    rw [addAliases_cons]
    exact ih _ hstep

/-- An accepted entry's normalized term maps to the entry's (stripped) term
immediately after the entry is processed. -/
theorem addGloss_get_self {minConf : ℚ} (m : AList) {g : GlossEntry}
    (hacc : ¬(strip g.term = [] ∨ g.confidence < minConf)) :
    dictGet (norm (strip g.term)) (addGloss minConf m g) = some (strip g.term) := by
  simp only [addGloss]
  rw [if_neg hacc]
  exact addAliases_get_self _ _ _ _ (dictGet_dictSet_self _ _ _)

/-- An entry that does not write key `k` (or is skipped) leaves the lookup
at `k` unchanged. -/
theorem addGloss_get_preserve {minConf : ℚ} (m : AList) {g : GlossEntry} {k : Str}
    (hw : ¬(strip g.term = [] ∨ g.confidence < minConf) → writesKey g k = false) :
    dictGet k (addGloss minConf m g) = dictGet k m := by
  simp only [addGloss]
  by_cases hacc : strip g.term = [] ∨ g.confidence < minConf
  · rw [if_pos hacc]
  · rw [if_neg hacc]
    have hw2 := hw hacc
    simp only [writesKey, Bool.or_eq_false_iff, decide_eq_false_iff_not,
      List.any_eq_false] at hw2
    obtain ⟨hw3, hw4⟩ := hw2
    rw [addAliases_get_preserve _ _ _ ?_ _]
    · exact dictGet_dictSet_ne hw3 _ m
    · intro a ha hne hkeq
      exact hw4 a ha (by simp [List.isEmpty_iff, hne, hkeq])

theorem addGloss_isSome {minConf : ℚ} {k : Str} {m : AList}
    (h : (dictGet k m).isSome = true) (g : GlossEntry) :
    (dictGet k (addGloss minConf m g)).isSome = true := by
  simp only [addGloss]
  by_cases hacc : strip g.term = [] ∨ g.confidence < minConf
  · rwa [if_pos hacc]
  · rw [if_neg hacc]
    exact addAliases_isSome _ _ _ (dictGet_dictSet_isSome h _ _)

theorem foldl_addGloss_isSome {minConf : ℚ} {k : Str} :
    ∀ (gs : List GlossEntry) (m : AList), (dictGet k m).isSome = true →
      (dictGet k (gs.foldl (addGloss minConf) m)).isSome = true := by
  intro gs
  induction gs with
  | nil => intro m h; exact h
  | cons g rest ih =>
    intro m h
    rw [List.foldl_cons]
    exact ih _ (addGloss_isSome h g)

theorem foldl_addGloss_preserve {minConf : ℚ} {k : Str} :
    ∀ (gs : List GlossEntry),
      (∀ g ∈ gs, ¬(strip g.term = [] ∨ g.confidence < minConf) → writesKey g k = false) →
      ∀ m : AList, dictGet k (gs.foldl (addGloss minConf) m) = dictGet k m := by
  intro gs
  induction gs with
  | nil => intro _ m; rfl
  | cons g rest ih =>
    intro h m
    rw [List.foldl_cons, ih (fun g2 hg2 => h g2 (by simp [hg2])),
      addGloss_get_preserve m (h g (by simp))]

theorem editSegments_map_fst (amap emap : AList) :
    ∀ (i : Nat) (ms : List Msg),
      (editSegments amap emap i ms).map Prod.fst =
        ms.map (fun m =>
          dictSet (cs "content") (.vStr (applyFixes (contentStr m) amap emap).1) m) := by
  intro i ms
  induction ms generalizing i with
  | nil => rfl
  | cons m rest ih =>
    simp only [editSegments, List.map_cons, ih (i + 1), editSegment]

theorem editSegments_getElem? (amap emap : AList) :
    ∀ (ms : List Msg) (i0 j : Nat),
      (editSegments amap emap i0 ms)[j]? = (ms[j]?).map (editSegment amap emap (i0 + j)) := by
  intro ms
  induction ms with
  | nil => intro i0 j; simp [editSegments]
  | cons m rest ih =>
    intro i0 j
    cases j with
    | zero => simp [editSegments]
    | succ n =>
      have harith : i0 + 1 + n = i0 + (n + 1) := by omega
      simp only [editSegments, List.getElem?_cons_succ, ih (i0 + 1) n, harith]

/-- `edit_transcript` depends on the context only through the two maps. -/
theorem editTranscript_congr_maps {obj1 obj2 : Transcript}
    (hm : obj1.messages = obj2.messages)
    (ha : buildAliasMap obj1.context_inferred conf06 = buildAliasMap obj2.context_inferred conf06)
    (he : buildErrorMap obj1.context_inferred conf07 =
      buildErrorMap obj2.context_inferred conf07) :
    (editTranscript obj1).messages = (editTranscript obj2).messages ∧
      (editTranscript obj1).editor_report = (editTranscript obj2).editor_report := by
  simp only [editTranscript]
  rw [hm, ha, he]
  exact ⟨rfl, rfl⟩

theorem buildAliasMap_skip {errs : List ErrEntry} {minConf : ℚ}
    {pre post : List GlossEntry} {g : GlossEntry}
    (hg : strip g.term = [] ∨ g.confidence < minConf) :
    buildAliasMap ⟨pre ++ g :: post, errs⟩ minConf =
      buildAliasMap ⟨pre ++ post, errs⟩ minConf := by
  simp only [buildAliasMap]
  rw [List.foldl_append, List.foldl_cons, List.foldl_append]
  have hskip : addGloss minConf (pre.foldl (addGloss minConf) []) g =
      pre.foldl (addGloss minConf) [] := by
    simp only [addGloss]
    rw [if_pos hg]
  rw [hskip]

theorem buildErrorMap_skip {gl : List GlossEntry} {minConf : ℚ}
    {pre post : List ErrEntry} {e : ErrEntry}
    (he : strip e.incorrect_text = [] ∨ strip e.correct_form = [] ∨ e.confidence < minConf) :
    buildErrorMap ⟨gl, pre ++ e :: post⟩ minConf =
      buildErrorMap ⟨gl, pre ++ post⟩ minConf := by
  simp only [buildErrorMap]
  rw [List.foldl_append, List.foldl_cons, List.foldl_append]
  have hskip : addErr minConf (pre.foldl (addErr minConf) []) e =
      pre.foldl (addErr minConf) [] := by
    simp only [addErr]
    rw [if_pos he]
  rw [hskip]

theorem filter_eq_nil_of_false {α : Type} (p : α → Bool) :
    ∀ l : List α, (∀ a ∈ l, p a = false) → l.filter p = [] := by
  intro l
  induction l with
  | nil => intro _; rfl
  | cons a rest ih =>
    intro h
    rw [List.filter_cons, if_neg (by simp [h a (by simp)])]
    exact ih (fun a2 ha2 => h a2 (by simp [ha2]))

/-- C10: for every input text and maps, the operation list returned by
`apply_fixes` forms a chain of full-text snapshots: the first operation's
`before` is the input text, each operation's `before` is the previous
operation's `after`, every operation has `after ≠ before`, the last `after`
is the returned text, and an empty list means the text is returned
unchanged (all of which is the statement `Chain t ops result`). -/
theorem c10_operations_chain (t : Str) (amap emap : AList) :
    Chain t (applyFixes t amap emap).2 (applyFixes t amap emap).1 := by
  have h1 : Chain t (glossPass amap t).2 (glossPass amap t).1 :=
    replacePass_chain (cs "glossary_normalization") (cs "glossary") conf09 amap t
  have h2 := replacePass_chain (cs "language_error_fix") (cs "llm_error") conf085 emap
    (glossPass amap t).1
  have h3 := dedupPass_chain (errPass emap (glossPass amap t).1).1
  have h4 := punctPass_chain (dedupPass (errPass emap (glossPass amap t).1).1).1
  simp only [applyFixes]
  exact chain_append (chain_append (chain_append h1 h2) h3) h4

/-- C1 counterexample: `apply_fixes` is not idempotent as claimed.  On the
input `"the the the"` (with empty maps) the first run returns `"The the."`,
and the second run still deduplicates, producing a non-empty operation
list. -/
theorem c1_counterexample :
    (applyFixes ((applyFixes (cs "the the the") [] []).1) [] []).2 ≠ [] := by decide

/-- C1 (amended): the second run of `apply_fixes` on the first run's output
returns that text unchanged with zero operations, provided the first output
is a fixed point of every alias/error substitution and of the deduplication
rewrite; the punctuation pass always stabilizes after one run.  (As stated
the claim is false: the single-pass deduplication rewrite can leave an
immediately repeated word, e.g. on `"the the the"`.) -/
theorem c1_idempotent_when_stable (t : Str) (amap emap : AList)
    (h1 : ∀ k ∈ sortDesc (dictKeys amap),
      wbSub k ((dictGet k amap).getD []) (applyFixes t amap emap).1 =
        (applyFixes t amap emap).1)
    (h2 : ∀ k ∈ sortDesc (dictKeys emap),
      wbSub k ((dictGet k emap).getD []) (applyFixes t amap emap).1 =
        (applyFixes t amap emap).1)
    (h3 : dedupSub (applyFixes t amap emap).1 = (applyFixes t amap emap).1) :
    applyFixes (applyFixes t amap emap).1 amap emap =
      ((applyFixes t amap emap).1, []) := by
  set r := (applyFixes t amap emap).1 with hr
  have hpunct : punctFix r = r := by
    rw [hr, applyFixes_fst]
    exact punctFix_idem _
  have hg : glossPass amap r = (r, []) := replacePass_fold_id _ _ _ amap _ r [] h1
  have he : errPass emap r = (r, []) := replacePass_fold_id _ _ _ emap _ r [] h2
  have hd : dedupPass r = (r, []) := by
    unfold dedupPass
    rw [if_neg (fun hc => hc h3), h3]
  have hp : punctPass r = (r, []) := by
    unfold punctPass
    rw [if_neg (fun hc => hc hpunct), hpunct]
  simp [applyFixes, hg, he, hd, hp]

/-- C1 witness: on `"hello"` (output `"Hello."`) with a sample alias map,
the hypotheses hold and the second run is a no-op. -/
theorem c1_witness :
    ((∀ k ∈ sortDesc (dictKeys [(cs "ai", cs "AI")]),
        wbSub k ((dictGet k [(cs "ai", cs "AI")]).getD [])
          (applyFixes (cs "hello") [(cs "ai", cs "AI")] []).1 =
          (applyFixes (cs "hello") [(cs "ai", cs "AI")] []).1) ∧
      (∀ k ∈ sortDesc (dictKeys ([] : AList)),
        wbSub k ((dictGet k ([] : AList)).getD [])
          (applyFixes (cs "hello") [(cs "ai", cs "AI")] []).1 =
          (applyFixes (cs "hello") [(cs "ai", cs "AI")] []).1) ∧
      dedupSub (applyFixes (cs "hello") [(cs "ai", cs "AI")] []).1 =
        (applyFixes (cs "hello") [(cs "ai", cs "AI")] []).1) ∧
    applyFixes (applyFixes (cs "hello") [(cs "ai", cs "AI")] []).1
        [(cs "ai", cs "AI")] [] =
      ((applyFixes (cs "hello") [(cs "ai", cs "AI")] []).1, []) :=
  ⟨⟨by decide, by decide, by decide⟩,
    c1_idempotent_when_stable (cs "hello") [(cs "ai", cs "AI")] []
      (by decide) (by decide) (by decide)⟩

/-- C4 counterexample: the deduplication pass does not collapse every
immediately repeated word in one pass: on `"the the the"` it returns
`"the the"`, which still contains an immediately repeated word (a second
application changes it again). -/
theorem c4_counterexample :
    dedupSub (cs "the the the") = cs "the the" ∧
      dedupSub (dedupSub (cs "the the the")) ≠ dedupSub (cs "the the the") := by
  exact ⟨by decide, by decide⟩

/-- C4 (amended): the deduplication pass is the single left-to-right
non-overlapping rewrite `dedupSub`; across a whole `apply_fixes` run the
operations of kind `deduplication` are exactly one operation (confidence
0.9, source `rule`, full-text before/after snapshots) when the rewrite
changed the intermediate text and none otherwise.  A single adjacent pair
is collapsed (`"the the"` → `"the"`), but because matches are
non-overlapping a repeated word can survive the pass (`"the the the"` →
`"the the"`), so "no immediately repeated word remains" is false. -/
theorem c4_dedup_single_pass :
    (∀ (t : Str) (amap emap : AList),
        (applyFixes t amap emap).2.filter (fun o => decide (o.op = cs "deduplication")) =
          (if dedupSub (errPass emap (glossPass amap t).1).1 ≠
              (errPass emap (glossPass amap t).1).1 then
            [⟨cs "deduplication", cs "Removed immediate repetition",
              (errPass emap (glossPass amap t).1).1,
              dedupSub (errPass emap (glossPass amap t).1).1, conf09, cs "rule"⟩]
          else [])) ∧
    dedupSub (cs "the the") = cs "the" ∧
    dedupSub (cs "the the the") = cs "the the" := by
  refine ⟨?_, by decide, by decide⟩
  intro t amap emap
  have hshape : (applyFixes t amap emap).2 =
      (glossPass amap t).2 ++ (errPass emap (glossPass amap t).1).2 ++
        (dedupPass (errPass emap (glossPass amap t).1).1).2 ++
        (punctPass (dedupPass (errPass emap (glossPass amap t).1).1).1).2 := rfl
  have hgloss : ∀ o ∈ (glossPass amap t).2,
      (fun o : Operation => decide (o.op = cs "deduplication")) o = false := by
    intro o ho
    have hk := replacePass_ops_kind _ _ _ amap t o ho
    simp only [hk]
    decide
  have herr : ∀ o ∈ (errPass emap (glossPass amap t).1).2,
      (fun o : Operation => decide (o.op = cs "deduplication")) o = false := by
    intro o ho
    have hk := replacePass_ops_kind _ _ _ emap (glossPass amap t).1 o ho
    simp only [hk]
    decide
  have hpunct : ∀ o ∈ (punctPass (dedupPass (errPass emap (glossPass amap t).1).1).1).2,
      (fun o : Operation => decide (o.op = cs "deduplication")) o = false := by
    intro o ho
    have hk := punctPass_ops_kind _ o ho
    simp only [hk]
    decide
  rw [hshape, List.filter_append, List.filter_append, List.filter_append,
    filter_eq_nil_of_false _ _ hgloss, filter_eq_nil_of_false _ _ herr,
    filter_eq_nil_of_false _ _ hpunct, dedupPass_snd]
  by_cases h : dedupSub (errPass emap (glossPass amap t).1).1 ≠
      (errPass emap (glossPass amap t).1).1
  · rw [if_pos h]
    simp [List.filter]
  · rw [if_neg h]
    simp [List.filter]

/-- C6: alias keys are iterated in order of descending key length (the
stable sort `sortDesc` is pairwise non-increasing in length), and on the
text `"the AI model is great"` with aliases `"ai"` and `"ai model"` mapping
to different canonical terms, the full `"AI model"` span is replaced (one
glossary operation rewriting it to the canonical term), not the embedded
`"AI"`. -/
theorem c6_longest_match :
    (∀ l : List Str, (sortDesc l).Pairwise (fun a b => b.length ≤ a.length)) ∧
    applyFixes (cs "the AI model is great")
        [(cs "ai", cs "artificial intelligence"), (cs "ai model", cs "NeuralNet")] [] =
      (cs "The NeuralNet is great.",
       [⟨cs "glossary_normalization", subDetail (cs "ai model") (cs "NeuralNet"),
         cs "the AI model is great", cs "the NeuralNet is great", conf09, cs "glossary"⟩,
        ⟨cs "punctuation", cs "Capitalization + ending punctuation",
         cs "the NeuralNet is great", cs "The NeuralNet is great.", conf08, cs "rule"⟩]) :=
  ⟨sortDesc_sorted, rfl⟩

/-- C7: every matched span is replaced by the literal stored replacement
string: the substitution scan equals the interleaving of the unmatched
pieces (computed without the replacement) with the replacement inserted
verbatim, so the output carries the canonical casing; illustrated on
`"use ai MODEL now"`, where the mixed-case span `"ai MODEL"` becomes the
stored `"AI Model"`. -/
theorem c7_literal_replacement :
    (∀ (key repl s : Str),
        wbSub key repl s = List.intercalate repl (wbPiecesF key s.length none s)) ∧
    applyFixes (cs "use ai MODEL now") [(cs "ai model", cs "AI Model")] [] =
      (cs "Use AI Model now.",
       [⟨cs "glossary_normalization", subDetail (cs "ai model") (cs "AI Model"),
         cs "use ai MODEL now", cs "use AI Model now", conf09, cs "glossary"⟩,
        ⟨cs "punctuation", cs "Capitalization + ending punctuation",
         cs "use AI Model now", cs "Use AI Model now.", conf08, cs "rule"⟩]) :=
  ⟨fun key repl s => wbScanF_eq_intercalate key repl s.length none s, rfl⟩

/-- C9: replacements are word-boundary delimited: if a text has no
boundary-delimited case-insensitive occurrence of the key (`noOccur`), the
substitution leaves it unchanged; in particular alias `"ia"` does not match
inside `"IAsystem"`, and `apply_fixes` leaves the token intact (only the
punctuation pass fires). -/
theorem c9_word_boundary :
    (∀ (key repl s : Str), noOccur key s = true → wbSub key repl s = s) ∧
    noOccur (cs "ia") (cs "IAsystem") = true ∧
    applyFixes (cs "IAsystem") [(cs "ia", cs "AI")] [] =
      (cs "IAsystem.",
       [⟨cs "punctuation", cs "Capitalization + ending punctuation",
         cs "IAsystem", cs "IAsystem.", conf08, cs "rule"⟩]) :=
  ⟨fun _ repl _ h => wbSub_eq_self_of_noOccur repl h, by decide, rfl⟩

/-- C9 witness: the no-occurrence hypothesis holds for `"ia"` in
`"IAsystem"` and the substitution (with an arbitrary replacement) leaves
the text unchanged. -/
theorem c9_witness :
    noOccur (cs "ia") (cs "IAsystem") = true ∧
      wbSub (cs "ia") (cs "XYZ") (cs "IAsystem") = cs "IAsystem" :=
  ⟨by decide, c9_word_boundary.1 (cs "ia") (cs "XYZ") (cs "IAsystem") (by decide)⟩

/-- C2 counterexample: last-write-wins breaks the unconditional
self-mapping invariant.  With entries `{term "AI"}` then
`{term "B", aliases ["ai"]}` (both accepted), the key `norm("AI") = "ai"`
ends up mapping to `"B"`, not to `"AI"`. -/
theorem c2_counterexample :
    dictGet (norm (strip (cs "AI")))
        (buildAliasMap ⟨[⟨cs "AI", [], conf09⟩, ⟨cs "B", [cs "ai"], conf09⟩], []⟩ conf06) =
      some (cs "B") ∧ cs "B" ≠ cs "AI" := by
  exact ⟨by decide, by decide⟩

/-- C2 (amended): for every accepted glossary entry the normalized term is
always a key of the alias map, and it maps to that same (stripped) term
provided no later accepted entry writes the same key (last-write-wins;
earlier writers and the entry's own aliases are overwritten harmlessly). -/
theorem c2_self_mapping (errs : List ErrEntry) (pre post : List GlossEntry)
    (g : GlossEntry) (hacc : ¬(strip g.term = [] ∨ g.confidence < conf06)) :
    (dictGet (norm (strip g.term)) (buildAliasMap ⟨pre ++ g :: post, errs⟩ conf06)).isSome
        = true ∧
      ((∀ g2 ∈ post, ¬(strip g2.term = [] ∨ g2.confidence < conf06) →
          writesKey g2 (norm (strip g.term)) = false) →
        dictGet (norm (strip g.term)) (buildAliasMap ⟨pre ++ g :: post, errs⟩ conf06) =
          some (strip g.term)) := by
  have hunfold : buildAliasMap ⟨pre ++ g :: post, errs⟩ conf06 =
      post.foldl (addGloss conf06) (addGloss conf06 (pre.foldl (addGloss conf06) []) g) := by
    simp only [buildAliasMap]
    rw [List.foldl_append, List.foldl_cons]
  constructor
  · rw [hunfold]
    apply foldl_addGloss_isSome
    rw [addGloss_get_self _ hacc]
    rfl
  · intro hw
    rw [hunfold, foldl_addGloss_preserve post hw _, addGloss_get_self _ hacc]

/-- C2 witness: a single accepted entry `{term "AI", conf 0.9}` yields the
self-mapping `"ai" → "AI"`. -/
theorem c2_witness :
    ¬(strip (cs "AI") = [] ∨ conf09 < conf06) ∧
      dictGet (norm (strip (cs "AI")))
          (buildAliasMap ⟨[⟨cs "AI", [], conf09⟩], []⟩ conf06) =
        some (strip (cs "AI")) :=
  ⟨by decide,
    (c2_self_mapping [] [] [] ⟨cs "AI", [], conf09⟩ (by decide)).2
      (fun g2 hg2 => absurd hg2 (List.not_mem_nil g2))⟩

/-- C3: `edit_transcript` preserves the number and order of segments and
every field other than `content` of every segment (`start_time`,
`end_time`, `speaker`, and any passthrough key); only `content` is
replaced. -/
theorem c3_field_preservation (obj : Transcript) :
    (editTranscript obj).messages.length = obj.messages.length ∧
      ∀ (i : Nat) (k : Str), k ≠ cs "content" →
        dictGet k ((editTranscript obj).messages.getD i []) =
          dictGet k (obj.messages.getD i []) := by
  have hmap : (editTranscript obj).messages =
      obj.messages.map (fun m =>
        dictSet (cs "content")
          (.vStr (applyFixes (contentStr m) (buildAliasMap obj.context_inferred conf06)
            (buildErrorMap obj.context_inferred conf07)).1) m) := by
    simp only [editTranscript]
    exact editSegments_map_fst _ _ 0 obj.messages
  constructor
  · rw [hmap, List.length_map]
  · intro i k hk
    rw [hmap, List.getD_eq_getElem?_getD, List.getD_eq_getElem?_getD,
      List.getElem?_map]
    cases h : obj.messages[i]? with
    | none => rfl
    | some m =>
      simp only [Option.map_some, Option.getD_some]
      exact dictGet_dictSet_ne (Ne.symm hk) _ m

/-- C3 witness: a concrete one-segment transcript keeps its `speaker`
field. -/
theorem c3_witness :
    cs "speaker" ≠ cs "content" ∧
      dictGet (cs "speaker")
          ((editTranscript ⟨[[(cs "speaker", .vStr (cs "A")),
            (cs "content", .vStr (cs "hi hi"))]], ⟨[], []⟩⟩).messages.getD 0 []) =
        dictGet (cs "speaker")
          (([[(cs "speaker", PyVal.vStr (cs "A")),
            (cs "content", PyVal.vStr (cs "hi hi"))]] : List Msg).getD 0 []) :=
  ⟨by decide,
    (c3_field_preservation ⟨[[(cs "speaker", .vStr (cs "A")),
      (cs "content", .vStr (cs "hi hi"))]], ⟨[], []⟩⟩).2 0 (cs "speaker") (by decide)⟩

/-- C5: confidence gating.  A glossary entry with confidence strictly below
0.6 contributes nothing to the alias map (deleting it leaves the map
unchanged); a language error with confidence strictly below 0.70
contributes nothing to the error map built with the 0.70 threshold; and
`edit_transcript`, which calls `build_error_map` with `min_conf = 0.70`
(overriding the 0.80 default), produces identical messages and report with
or without such an entry. -/
theorem c5_confidence_gating :
    (∀ (errs : List ErrEntry) (pre post : List GlossEntry) (g : GlossEntry),
        g.confidence < conf06 →
        buildAliasMap ⟨pre ++ g :: post, errs⟩ conf06 =
          buildAliasMap ⟨pre ++ post, errs⟩ conf06) ∧
    (∀ (gl : List GlossEntry) (pre post : List ErrEntry) (e : ErrEntry),
        e.confidence < conf07 →
        buildErrorMap ⟨gl, pre ++ e :: post⟩ conf07 =
          buildErrorMap ⟨gl, pre ++ post⟩ conf07) ∧
    (∀ (obj : Transcript) (pre post : List ErrEntry) (e : ErrEntry),
        obj.context_inferred.language_errors = pre ++ e :: post →
        e.confidence < conf07 →
        (editTranscript obj).messages =
          (editTranscript
            ⟨obj.messages, ⟨obj.context_inferred.glossary, pre ++ post⟩⟩).messages ∧
        (editTranscript obj).editor_report =
          (editTranscript
            ⟨obj.messages, ⟨obj.context_inferred.glossary, pre ++ post⟩⟩).editor_report) := by
  refine ⟨?_, ?_, ?_⟩
  · intro errs pre post g hg
    exact buildAliasMap_skip (Or.inr hg)
  · intro gl pre post e he
    exact buildErrorMap_skip (Or.inr (Or.inr he))
  · intro obj pre post e hctx he
    have ha : buildAliasMap obj.context_inferred conf06 =
        buildAliasMap ⟨obj.context_inferred.glossary, pre ++ post⟩ conf06 := rfl
    have he2 : buildErrorMap obj.context_inferred conf07 =
        buildErrorMap ⟨obj.context_inferred.glossary, pre ++ post⟩ conf07 := by
      have hsplit : obj.context_inferred =
          ⟨obj.context_inferred.glossary, pre ++ e :: post⟩ := by
        rw [← hctx]
      rw [hsplit]
      exact buildErrorMap_skip (Or.inr (Or.inr he))
    exact editTranscript_congr_maps rfl ha he2

/-- C5 witness: a glossary entry at 0.59 and a language error at 0.69 are
both discarded on a concrete transcript. -/
theorem c5_witness :
    (Rat.mk' 59 100 < conf06 ∧
      buildAliasMap ⟨[⟨cs "AI", [cs "ai"], Rat.mk' 59 100⟩], []⟩ conf06 =
        buildAliasMap ⟨[], []⟩ conf06) ∧
    (Rat.mk' 69 100 < conf07 ∧
      buildErrorMap ⟨[], [⟨cs "tres", cs "très", Rat.mk' 69 100⟩]⟩ conf07 =
        buildErrorMap ⟨[], []⟩ conf07) :=
  ⟨⟨by decide,
      c5_confidence_gating.1 [] [] [] ⟨cs "AI", [cs "ai"], Rat.mk' 59 100⟩ (by decide)⟩,
    ⟨by decide,
      c5_confidence_gating.2.1 [] [] [] ⟨cs "tres", cs "très", Rat.mk' 69 100⟩ (by decide)⟩⟩

/-- C8: `edit_transcript` is total (the embedding is a function), and a
segment whose `content` key is missing is treated as the empty string: its
output `content` is the empty string and its segment report records no
operations and `changed = false`. -/
theorem c8_missing_content (obj : Transcript) (i : Nat) (m : Msg)
    (hm : obj.messages[i]? = some m)
    (hc : dictGet (cs "content") m = none) :
    (editTranscript obj).messages[i]? =
        some (dictSet (cs "content") (.vStr []) m) ∧
      ∃ r, (editTranscript obj).editor_report.segment_reports[i]? = some r ∧
        r.operations = [] ∧ r.changed = false := by
  have hcontent : contentStr m = [] := by
    simp [contentStr, hc]
  have hseg : ∀ j : Nat,
      editSegment (buildAliasMap obj.context_inferred conf06)
          (buildErrorMap obj.context_inferred conf07) j m =
        (dictSet (cs "content") (.vStr []) m,
         { index := j
           start_time := dictGet (cs "start_time") m
           end_time := dictGet (cs "end_time") m
           speaker := dictGet (cs "speaker") m
           changed := false
           operations := [] }) := by
    intro j
    simp only [editSegment, hcontent, applyFixes_nil_text]
    rfl
  have h2 : (editSegments (buildAliasMap obj.context_inferred conf06)
      (buildErrorMap obj.context_inferred conf07) 0 obj.messages)[i]? =
      some (editSegment (buildAliasMap obj.context_inferred conf06)
        (buildErrorMap obj.context_inferred conf07) (0 + i) m) := by
    rw [editSegments_getElem?, hm, Option.map_some']
  constructor
  · have h1 : (editTranscript obj).messages =
        (editSegments (buildAliasMap obj.context_inferred conf06)
          (buildErrorMap obj.context_inferred conf07) 0 obj.messages).map Prod.fst := rfl
    rw [h1, List.getElem?_map, h2, Option.map_some', hseg (0 + i)]
  · refine ⟨{ index := 0 + i
              start_time := dictGet (cs "start_time") m
              end_time := dictGet (cs "end_time") m
              speaker := dictGet (cs "speaker") m
              changed := false
              operations := [] }, ?_, rfl, rfl⟩
    have h1 : (editTranscript obj).editor_report.segment_reports =
        (editSegments (buildAliasMap obj.context_inferred conf06)
          (buildErrorMap obj.context_inferred conf07) 0 obj.messages).map Prod.snd := rfl
    rw [h1, List.getElem?_map, h2, Option.map_some', hseg (0 + i)]

/-- C8 witness: a transcript whose only segment has no `content` key. -/
theorem c8_witness :
    (([[(cs "speaker", PyVal.vStr (cs "A"))]] : List Msg)[0]? =
        some [(cs "speaker", PyVal.vStr (cs "A"))]) ∧
      dictGet (cs "content") ([(cs "speaker", PyVal.vStr (cs "A"))] : Msg) = none ∧
      (editTranscript ⟨[[(cs "speaker", .vStr (cs "A"))]], ⟨[], []⟩⟩).messages[0]? =
        some (dictSet (cs "content") (.vStr [])
          [(cs "speaker", PyVal.vStr (cs "A"))]) :=
  ⟨by decide, by decide,
    (c8_missing_content ⟨[[(cs "speaker", .vStr (cs "A"))]], ⟨[], []⟩⟩ 0
      [(cs "speaker", PyVal.vStr (cs "A"))] (by decide) (by decide)).1⟩

end TranscriptEdit

